import Mathlib

/-!
Verification development for the AMPL language-server core
(`src/server/tool/ampl_utils/ampl_types.py`, `src/server/tool/server.py`):
the value classifier, the pattern grammar, the document index and the
navigation handlers, embedded shallowly as executable Lean functions.

Strings are modelled as `String`/`List Char`; the Python `re` patterns used
by the source are small enough that each one is embedded as a dedicated
character-level matcher whose structure follows the pattern literally
(including Python `re.match` prefix semantics and backtracking, which for
these patterns reduces to maximal-run scanning, as argued in the doc
comments).  Inputs are ASCII, so `\w` is `[a-zA-Z0-9_]`.
-/

namespace AmplLsp

/-- Python `\w` on ASCII input: `[a-zA-Z0-9_]`. -/
def wordChar (c : Char) : Bool := c.isAlphanum || c == '_'

/-- Python `\s` on ASCII input. -/
def spaceChar (c : Char) : Bool :=
  c == ' ' || c == '\t' || c == '\n' || c == '\r' || c == '\x0b' || c == '\x0c'

/-! ## Value classifier (`ampl_types.py`) -/

/-- Length of the match of `Number.regex = \b([0-9]+(\.[0-9]+)?)` at
position 0 of the input (Python `re.Pattern.match`, which anchors at the
start but accepts a proper prefix).  `\b` at the start of the string holds
iff the first character is a word character; `[0-9]+` then consumes the
maximal digit run (backtracking cannot help: a shortened run is followed by
a digit, which no later pattern element accepts); the optional fractional
part extends the match when a dot followed by at least one digit follows. -/
def numberMatchLen (cs : List Char) : Option Nat :=
  match cs with
  | [] => none
  | c :: _ =>
    if wordChar c then
      match cs.span (fun ch => ch.isDigit) with
      | ([], _) => none
      | (ds, '.' :: rest) =>
        match rest.span (fun ch => ch.isDigit) with
        | ([], _) => some ds.length
        | (fs, _) => some (ds.length + 1 + fs.length)
      | (ds, _) => some ds.length
    else none

/-- Length of the match of `Symbolic.regex = \b([a-zA-Z_][a-zA-Z0-9_]*)` at
position 0 of the input (`re.Pattern.match` prefix semantics): first
character alphabetic or underscore (which also satisfies the leading `\b`),
then the maximal word-character run. -/
def symbolicMatchLen (cs : List Char) : Option Nat :=
  match cs with
  | [] => none
  | c :: rest =>
    if c.isAlpha || c == '_' then
      some (1 + (rest.span wordChar).fst.length)
    else none

/-- `bool(Number.regex.match(value))` as used by `parse_type`. -/
def numberMatches (s : String) : Bool := (numberMatchLen s.data).isSome

/-- `bool(Symbolic.regex.match(value))` as used by `parse_type`. -/
def symbolicMatches (s : String) : Bool := (symbolicMatchLen s.data).isSome

/-- Spec-side definition (for the refinement comparison in C2, following the
spec's words "matches the *entire relevant span* of `raw`"): the number
pattern matches the whole input, not merely a prefix.  The pattern is
deterministic once anchored, so full match holds iff the anchored match
consumes every character. -/
def numberMatchesFull (s : String) : Bool :=
  match numberMatchLen s.data with
  | some n => n == s.data.length
  | none => false

/-- Spec-side definition (for the refinement comparison in C2): the symbolic
pattern matches the whole input, not merely a prefix. -/
def symbolicMatchesFull (s : String) : Bool :=
  match symbolicMatchLen s.data with
  | some n => n == s.data.length
  | none => false

/-- The class hierarchy of `ampl_types.py`, one constructor per class. -/
inductive AmplClass where
  | typeBase
  | primitive
  | number
  | symbolic
  | declaredType
  | set
  | objective
  | constraint
  | argument
  | function
deriving DecidableEq, Repr

/-- `cls.__subclasses__()`: the direct subclasses of each class, in module
definition order (the commented-out drafts in the source define no
classes). -/
def subclasses : AmplClass → List AmplClass
  | .typeBase => [.primitive, .declaredType, .argument, .function]
  | .primitive => [.number, .symbolic]
  | .declaredType => [.set, .objective, .constraint]
  | _ => []

/-- The `type_name` class attribute.  `TypeBase` only annotates the
attribute without assigning it; `display_name` never reads it there because
`TypeBase` has subclasses, so the placeholder `""` is never observed.
`Objective` and `Constraint` inherit `DeclaredType`'s value. -/
def type_name : AmplClass → String
  | .typeBase => ""
  | .primitive => "primitive"
  | .number => "number"
  | .symbolic => "symbolic"
  | .declaredType => "declared_type"
  | .set => "set"
  | .objective => "declared_type"
  | .constraint => "declared_type"
  | .argument => "argument"
  | .function => "function"

/-- The `iterable` class attribute: `False` on `TypeBase`, overridden to
`True` only by `Set`. -/
def iterable : AmplClass → Bool
  | .set => true
  | _ => false

/-- `TypeBase.display_name`: classes with subclasses display `"Any"`;
otherwise the `type_name`, suffixed `[]` when `iterable`. -/
def display_name (c : AmplClass) : String :=
  if subclasses c ≠ [] then "Any"
  else if iterable c then type_name c ++ "[]"
  else type_name c

/-- One instance of an AMPL type class: the class it was constructed from
and the `value` stored by `TypeBase.__init__`. -/
structure AmplValue where
  cls : AmplClass
  value : String
deriving DecidableEq, Repr

/-- `_sub.regex.match(value)` for the classes consulted by the classifier.
Only `Number`, `Symbolic`, `Argument` and `Function` define a `regex`
attribute in the live source; the classifier invoked on `Primitive` only
ever consults `Number` and `Symbolic`, so the others are irrelevant here
(reading `regex` on them would be an `AttributeError`, which never
happens on this call path). -/
def regexMatches : AmplClass → String → Bool
  | .number, s => numberMatches s
  | .symbolic, s => symbolicMatches s
  | _, _ => false

/-- `TypeBase.parse_type` as invoked on `Primitive` (the value classifier:
its fallback is the `Primitive` wrapper).  The loop iterates
`cls.__subclasses__()` — for `Primitive` that is `[Number, Symbolic]` in
definition order — and returns `_sub(value)` for the first subclass whose
`regex.match(value)` succeeds, else `cls(value)`.  (The `classes` local
computed before the loop is dead code in the source: the loop iterates
`cls.__subclasses__()` again.) -/
def parse_type (value : String) : AmplValue :=
  match (subclasses .primitive).find? (fun sub => regexMatches sub value) with
  | some sub => ⟨sub, value⟩
  | none => ⟨.primitive, value⟩

/-! ## Pattern grammar: line-level recognizers -/

/-- Match a literal character sequence at the head of the input, returning
the remaining suffix (one regex literal atom). -/
def litP : List Char → List Char → Option (List Char)
  | [], cs => some cs
  | _ :: _, [] => none
  | p :: ps, c :: cs => if c == p then litP ps cs else none

/-- The `subject\sto` alternative of the variable keyword alternation:
literal `subject`, one `\s` character, literal `to`. -/
def subjectSpTo (cs : List Char) : Option (List Char) :=
  match litP "subject".data cs with
  | some (c :: rest) => if spaceChar c then litP "to".data rest else none
  | _ => none

/-- The alternatives of the leading group of the (commented-out) variable
recognizer `^(arc|maximize|minimize|node|param|set|function|subj to|s\.t\.|subject\sto|var)`,
in source order.  Each alternative is deterministic, so regex backtracking
over the alternation is exactly: try each alternative in order, and on
failure of the rest of the pattern move on to the next alternative. -/
def varKeywordAlts : List (List Char → Option (List Char)) :=
  [litP "arc".data, litP "maximize".data, litP "minimize".data,
   litP "node".data, litP "param".data, litP "set".data,
   litP "function".data, litP "subj to".data, litP "s.t.".data,
   subjectSpTo, litP "var".data]

/-- The rest of the variable recognizer after the keyword group:
`\s(?![if|and|or])([a-zA-Z_][a-zA-Z0-9_]*)`.  Note `[if|and|or]` inside the
lookahead is a *character class* {i, f, |, a, n, d, o, r}, so the negative
lookahead fails exactly when the next character is one of those characters
(and trivially succeeds at end of input).  The capture group consumes one
`[a-zA-Z_]` character and then the maximal `[a-zA-Z0-9_]` run.  `cs` is the
whole line, `rest` the suffix after the keyword; the returned columns are
positions in `cs`. -/
def variableTail (cs : List Char) : List Char → Option (String × Nat × Nat)
  | [] => none
  | [_] => none
  | c :: d :: rest3 =>
    if spaceChar c then
      if d ∈ ['i', 'f', '|', 'a', 'n', 'd', 'o', 'r'] then none
      else if d.isAlpha || d == '_' then
        let run := (rest3.span wordChar).fst
        let start := cs.length - (d :: rest3).length
        some (String.mk (d :: run), start, start + 1 + run.length)
      else none
    else none

/-- Try the keyword alternatives in order; for each that consumes a prefix,
attempt the rest of the pattern, backtracking to the next alternative on
failure. -/
def firstAlt (cs : List Char) : List (List Char → Option (List Char)) → Option (String × Nat × Nat)
  | [] => none
  | a :: alts =>
    match a cs with
    | some rest =>
      match variableTail cs rest with
      | some ans => some ans
      | none => firstAlt cs alts
    | none => firstAlt cs alts

/-- `Variable.regex.match(line)` of the commented-out `Variable` class
(`ampl_types.py`): anchored at the start (`^` and `re.match` agree);
returns the second capture group (the identifier) together with its column
extent, which is what the indexer records for a variable declaration. -/
def variableMatch (s : String) : Option (String × Nat × Nat) :=
  firstAlt s.data varKeywordAlts

/-- `Function.regex.match(line)` for `^function ([a-z]\w+)\(`: the literal
`function `, then a lowercase letter, then at least one more word character
(maximal run — a shortened run would leave a word character where the
literal `(` is required), then `(`.  Returns the captured name and its
column extent (the name starts at column 9). -/
def functionMatch (s : String) : Option (String × Nat × Nat) :=
  match litP "function ".data s.data with
  | some (c :: rest) =>
    if c.isLower then
      match rest.span wordChar with
      | ([], _) => none
      | (run, '(' :: _) => some (String.mk (c :: run), 9, 9 + 1 + run.length)
      | _ => none
    else none
  | _ => none

/-- `AMPLType.regex.match(line)` for `^type ([A-Z]\w+)\(` (the `type`
category rule of the grammar, `bundled/tool/ampl/ampl_types.py`): literal
`type `, an uppercase letter, at least one more word character (maximal
run), then `(`.  The name starts at column 5. -/
def typeMatch (s : String) : Option (String × Nat × Nat) :=
  match litP "type ".data s.data with
  | some (c :: rest) =>
    if c.isUpper then
      match rest.span wordChar with
      | ([], _) => none
      | (run, '(' :: _) => some (String.mk (c :: run), 5, 5 + 1 + run.length)
      | _ => none
    else none
  | _ => none

/-- One anchored attempt of `Argument.regex = (?P<name>\w+): (?P<type>\w+)`
at the head of `cs`: the maximal word run (backtracking cannot shorten it —
a shortened run is followed by a word character where `:` is required),
the literal `: `, then a nonempty maximal word run.  Returns the two
captures and the total matched length. -/
def argAttempt (cs : List Char) : Option (String × String × Nat) :=
  match cs.span wordChar with
  | ([], _) => none
  | (r1, ':' :: ' ' :: rest2) =>
    match rest2.span wordChar with
    | ([], _) => none
    | (r2, _) => some (String.mk r1, String.mk r2, r1.length + 2 + r2.length)
  | _ => none

/-- Worker for the finditer scan: advance one character at a time; while
`skip > 0` we are inside the previous match and attempt nothing (finditer
resumes scanning at the end of each match).  `i` is the absolute column of
the head of `cs`. -/
def argScanGo (skip : Nat) (cs : List Char) (i : Nat) :
    List (String × String × Nat × Nat) :=
  match cs, skip with
  | [], _ => []
  | _ :: rest, Nat.succ k => argScanGo k rest (i + 1)
  | c :: rest, 0 =>
    match argAttempt (c :: rest) with
    | some (n, t, len) => (n, t, i, i + len) :: argScanGo (len - 1) rest (i + 1)
    | none => argScanGo 0 rest (i + 1)

/-- `Argument.regex.finditer(line)`: scan positions left to right, attempt
the anchored match at each, and resume after the end of each match
(non-overlapping, in increasing position order).  `i` is the absolute
column of the head of `cs`; results are `(name, type, start, end)`. -/
def argScan (cs : List Char) (i : Nat) : List (String × String × Nat × Nat) :=
  argScanGo 0 cs i

/-! ## Document index and server handlers (`server.py`) -/

/-- A source range as stored in the index and returned in locations:
zero-based line, half-open column span (both positions of an
`lsp.Range` produced by this server lie on the same line). -/
structure SourceRange where
  line : Nat
  startCol : Nat
  endCol : Nat
deriving DecidableEq, Repr

/-- An `lsp.Location`: document URI plus range. -/
structure Location where
  uri : String
  range : SourceRange
deriving DecidableEq, Repr

/-- Python `dict` lookup over an association list (keys unique). -/
def alookup {α : Type} : List (String × α) → String → Option α
  | [], _ => none
  | (k, v) :: rest, n => if k = n then some v else alookup rest n

/-- Python `dict` assignment `d[n] = r`: replace the entry for an existing
key in place, else append (insertion order preserved). -/
def upsert {α : Type} : List (String × α) → String → α → List (String × α)
  | [], n, r => [(n, r)]
  | (k, v) :: rest, n, r =>
    if k = n then (n, r) :: rest else (k, v) :: upsert rest n r

/-- One document's symbol table: category → (name → range), with the
categories of the pattern grammar that are persisted as table entries
(`variable`, `function`, `type`; the `argument` rule is resolved inline by
the declaration handler and not persisted). -/
structure DocIndex where
  vars : List (String × SourceRange)
  funcs : List (String × SourceRange)
  types : List (String × SourceRange)
deriving DecidableEq, Repr

/-- Apply every declaration rule of the grammar to one line, recording each
captured name under its category with the range of the name's column
extent on that line (later lines will overwrite via `upsert`). -/
def applyLine (idx : DocIndex) (l : Nat) (s : String) : DocIndex :=
  let i1 :=
    match variableMatch s with
    | some (n, a, b) => { idx with vars := upsert idx.vars n ⟨l, a, b⟩ }
    | none => idx
  let i2 :=
    match functionMatch s with
    | some (n, a, b) => { i1 with funcs := upsert i1.funcs n ⟨l, a, b⟩ }
    | none => i1
  match typeMatch s with
  | some (n, a, b) => { i2 with types := upsert i2.types n ⟨l, a, b⟩ }
  | none => i2

/-- Index the lines starting at line number `l` into `idx`. -/
def parseFrom (l : Nat) : List String → DocIndex → DocIndex
  | [], idx => idx
  | s :: rest, idx => parseFrom (l + 1) rest (applyLine idx l s)

/-- Modelled from the spec: `AMPLServer.parse_document` (the document
indexer that populates `ls.index_[doc.uri]`) is not under `src/` — only its
call sites in `server.py` (`did_open`, `did_change`) and its consumers (the
navigation handlers reading `index["variable"]`, `index["function"]`) are.
Per the spec (§4.3): for each line, attempt each declaration rule of the
grammar; on a match record `table[category][name]` with the range spanning
the matched name's column extent on that line; later declarations of the
same `(category, name)` overwrite earlier ones; re-indexing rebuilds the
table from scratch.  The recognizer patterns themselves are taken from the
source (`variableMatch`, `functionMatch`, `typeMatch`). -/
def parse_document (lines : List String) : DocIndex :=
  parseFrom 0 lines ⟨[], [], []⟩

/-- Specification-side description of the indexer's contents, for the
last-write-wins comparison: all declarations of `name` under rule `m`, in
line order (starting at line `l`). -/
def declsFrom (m : String → Option (String × Nat × Nat)) (name : String)
    (l : Nat) : List String → List SourceRange
  | [] => []
  | s :: rest =>
    match m s with
    | some (n, a, b) =>
      if n = name then ⟨l, a, b⟩ :: declsFrom m name (l + 1) rest
      else declsFrom m name (l + 1) rest
    | none => declsFrom m name (l + 1) rest

/-- All declarations of `name` under rule `m` in the document, in line
order. -/
def declsOf (m : String → Option (String × Nat × Nat)) (name : String)
    (lines : List String) : List SourceRange :=
  declsFrom m name 0 lines

/-- `goto_definition`: no index for the URI → no result; otherwise look the
cursor word up under category `variable`. -/
def goto_definition (store : List (String × DocIndex)) (uri : String)
    (word : String) : Option Location :=
  match alookup store uri with
  | none => none
  | some idx =>
    match alookup idx.vars word with
    | some r => some ⟨uri, r⟩
    | none => none

/-- `goto_implementation`: no index for the URI → no result; otherwise look
the cursor word up under category `function`. -/
def goto_implementation (store : List (String × DocIndex)) (uri : String)
    (word : String) : Option Location :=
  match alookup store uri with
  | none => none
  | some idx =>
    match alookup idx.funcs word with
    | some r => some ⟨uri, r⟩
    | none => none

/-- `goto_declaration`: no index for the URI → no result; otherwise read
the cursor line (`try: doc.lines[pos.line] except IndexError: line = ""` —
an out-of-range cursor line is treated as the empty line), scan it with
`Argument.regex.finditer`, and return the full span of the first match
whose `name` capture equals the cursor word. -/
def goto_declaration (store : List (String × DocIndex)) (uri : String)
    (lines : List String) (cursorLine : Nat) (word : String) : Option Location :=
  match alookup store uri with
  | none => none
  | some _ =>
    let line := (lines[cursorLine]?).getD ""
    match (argScan line.data 0).find? (fun m => m.fst == word) with
    | some m => some ⟨uri, ⟨cursorLine, m.snd.snd.fst, m.snd.snd.snd⟩⟩
    | none => none

/-- Is the character at index `i` of `cs` absent or not a word character
(the `\b` condition on one side of a word-shaped needle)? -/
def notWordAt (cs : List Char) (i : Nat) : Bool :=
  match cs[i]? with
  | some c => !wordChar c
  | none => true

/-- The leading `\b` of `\b{word}\b` at position `a`: start of line, or a
non-word character just before. -/
def boundaryBefore (cs : List Char) (a : Nat) : Bool :=
  match a with
  | 0 => true
  | Nat.succ a0 => notWordAt cs a0

/-- Does `\b{word}\b` match `cs` at position `a`?  (The pattern
`find_references` builds by f-string interpolation.)  For a word-shaped
needle — nonempty, all word characters, which is what
`doc.word_at_position` produces — `\b` on each side holds exactly when the
adjacent character is absent or not a word character. -/
def occP (cs : List Char) (w : List Char) (a : Nat) : Bool :=
  ((cs.drop a).take w.length == w)
  && boundaryBefore cs a
  && notWordAt cs (a + w.length)

/-- The start positions of the matches `re.finditer(f"\\b{word}\\b", line)`
yields, in increasing order.  For a word-shaped needle two candidate
positions cannot overlap (an overlap would put a word character immediately
before the later candidate, violating its leading `\b`), so finditer's
left-to-right non-overlapping scan yields exactly every position where the
pattern matches. -/
def occStarts (line : String) (w : String) : List Nat :=
  (List.range (line.data.length + 1)).filter (fun a => occP line.data w.data a)

/-- The reference list built by `find_references`: for each line in order,
one location per whole-word occurrence, spanning the occurrence. -/
def refsFrom (uri : String) (w : String) (l : Nat) : List String → List Location
  | [] => []
  | s :: rest =>
    (occStarts s w).map (fun a => ⟨uri, ⟨l, a, a + w.length⟩⟩)
      ++ refsFrom uri w (l + 1) rest

/-- `any([word in index[name] for name in index])`: is the word a key in
any category of the index? -/
def anyKey (idx : DocIndex) (w : String) : Bool :=
  (alookup idx.vars w).isSome || (alookup idx.funcs w).isSome
    || (alookup idx.types w).isSome

/-- `find_references`: no index for the URI → no result; cursor word a key
in no category → no result; otherwise scan every line for whole-word
occurrences and return them all in document order. -/
def find_references (store : List (String × DocIndex)) (uri : String)
    (lines : List String) (word : String) : Option (List Location) :=
  match alookup store uri with
  | none => none
  | some idx =>
    if anyKey idx word then some (refsFrom uri word 0 lines) else none

/-- `hover`: reads `document.lines[params.position.line]` with no guard —
an out-of-range cursor line raises `IndexError` (modelled as
`Except.error`).  Otherwise: no result unless the stripped line ends with
`hello.`, in which case the static hover content is returned. -/
def hover (lines : List String) (cursorLine : Nat) : Except String (Option String) :=
  match lines[cursorLine]? with
  | none => Except.error "IndexError"
  | some s =>
    if !(s.trim.endsWith "hello.") then Except.ok none
    else Except.ok (some "This is a hover message for `hello`.")

/-- `completions`: reads `document.lines[params.position.line]` with no
guard — an out-of-range cursor line raises `IndexError` (modelled as
`Except.error`).  Otherwise: empty list unless the stripped line ends with
`hello.`, in which case the two static items are returned. -/
def completions (lines : List String) (cursorLine : Nat) : Except String (List String) :=
  match lines[cursorLine]? with
  | none => Except.error "IndexError"
  | some s =>
    if !(s.trim.endsWith "hello.") then Except.ok []
    else Except.ok ["world", "friend"]

/-- Document order on locations: ascending line, then ascending start
column (the order in which `find_references` emits its hits). -/
def locLt (x y : Location) : Prop :=
  x.range.line < y.range.line ∨
    (x.range.line = y.range.line ∧ x.range.startCol < y.range.startCol)

/-! ## Helper lemmas -/

/-- `getLast?` of a cons, phrased through `<|>`: the last element of the
tail if it has one, else the head. -/
theorem getLast?_cons_orElse (x : α) (xs : List α) :
    (x :: xs).getLast? = (xs.getLast? <|> some x) := by
  induction xs generalizing x with
  | nil => rfl
  | cons y ys ih =>
    cases hz : ys.getLast? <;>
      simp [List.getLast?_cons_cons, ih, hz]

/-- Lookup after a dict assignment: the assigned key reads the new value,
every other key is unaffected. -/
theorem alookup_upsert {α : Type} (l : List (String × α)) (n m : String) (r : α) :
    alookup (upsert l n r) m = if n = m then some r else alookup l m := by
  induction l with
  | nil => simp [upsert, alookup]
  | cons p rest ih =>
    obtain ⟨k, v⟩ := p
    by_cases hk : k = n
    · subst hk
      by_cases hm : k = m <;> simp [upsert, alookup, hm]
    · by_cases hm : k = m
      · subst hm
        have : ¬ n = k := fun h => hk h.symm
        simp [upsert, alookup, hk, this]
      · simp [upsert, alookup, hk, hm, ih]

/-- `applyLine` touches the `variable` table exactly as the variable rule
dictates. -/
theorem applyLine_vars (idx : DocIndex) (l : Nat) (s : String) :
    (applyLine idx l s).vars =
      (match variableMatch s with
       | some (n, a, b) => upsert idx.vars n ⟨l, a, b⟩
       | none => idx.vars) := by
  rcases hv : variableMatch s with _ | ⟨n, a, b⟩ <;>
    rcases hf : functionMatch s with _ | ⟨n2, a2, b2⟩ <;>
    rcases ht : typeMatch s with _ | ⟨n3, a3, b3⟩ <;>
    simp [applyLine, hv, hf, ht]

/-- `applyLine` touches the `function` table exactly as the function rule
dictates. -/
theorem applyLine_funcs (idx : DocIndex) (l : Nat) (s : String) :
    (applyLine idx l s).funcs =
      (match functionMatch s with
       | some (n, a, b) => upsert idx.funcs n ⟨l, a, b⟩
       | none => idx.funcs) := by
  rcases hv : variableMatch s with _ | ⟨n, a, b⟩ <;>
    rcases hf : functionMatch s with _ | ⟨n2, a2, b2⟩ <;>
    rcases ht : typeMatch s with _ | ⟨n3, a3, b3⟩ <;>
    simp [applyLine, hv, hf, ht]

/-- `applyLine` touches the `type` table exactly as the type rule
dictates. -/
theorem applyLine_types (idx : DocIndex) (l : Nat) (s : String) :
    (applyLine idx l s).types =
      (match typeMatch s with
       | some (n, a, b) => upsert idx.types n ⟨l, a, b⟩
       | none => idx.types) := by
  rcases hv : variableMatch s with _ | ⟨n, a, b⟩ <;>
    rcases hf : functionMatch s with _ | ⟨n2, a2, b2⟩ <;>
    rcases ht : typeMatch s with _ | ⟨n3, a3, b3⟩ <;>
    simp [applyLine, hv, hf, ht]

/-- Indexing from line `l` reads back, for each name, the last declaration
among the scanned lines, falling back to whatever the initial table held. -/
theorem parseFrom_vars_lookup (rest : List String) :
    ∀ (l : Nat) (idx : DocIndex) (n : String),
      alookup (parseFrom l rest idx).vars n =
        ((declsFrom variableMatch n l rest).getLast? <|> alookup idx.vars n) := by
  induction rest with
  | nil => intro l idx n; simp [parseFrom, declsFrom]
  | cons s rest ih =>
    intro l idx n
    rw [parseFrom, ih, declsFrom]
    rcases hv : variableMatch s with _ | ⟨n', a, b⟩
    · simp [applyLine_vars, hv]
    · by_cases hn : n' = n
      · subst hn
        cases hz : (declsFrom variableMatch n' (l + 1) rest).getLast? <;>
          simp [applyLine_vars, hv, alookup_upsert, hz, getLast?_cons_orElse]
      · simp [applyLine_vars, hv, alookup_upsert, hn]

/-- Function-category analogue of `parseFrom_vars_lookup`. -/
theorem parseFrom_funcs_lookup (rest : List String) :
    ∀ (l : Nat) (idx : DocIndex) (n : String),
      alookup (parseFrom l rest idx).funcs n =
        ((declsFrom functionMatch n l rest).getLast? <|> alookup idx.funcs n) := by
  induction rest with
  | nil => intro l idx n; simp [parseFrom, declsFrom]
  | cons s rest ih =>
    intro l idx n
    rw [parseFrom, ih, declsFrom]
    rcases hf : functionMatch s with _ | ⟨n', a, b⟩
    · simp [applyLine_funcs, hf]
    · by_cases hn : n' = n
      · subst hn
        cases hz : (declsFrom functionMatch n' (l + 1) rest).getLast? <;>
          simp [applyLine_funcs, hf, alookup_upsert, hz, getLast?_cons_orElse]
      · simp [applyLine_funcs, hf, alookup_upsert, hn]

/-- Type-category analogue of `parseFrom_vars_lookup`. -/
theorem parseFrom_types_lookup (rest : List String) :
    ∀ (l : Nat) (idx : DocIndex) (n : String),
      alookup (parseFrom l rest idx).types n =
        ((declsFrom typeMatch n l rest).getLast? <|> alookup idx.types n) := by
  induction rest with
  | nil => intro l idx n; simp [parseFrom, declsFrom]
  | cons s rest ih =>
    intro l idx n
    rw [parseFrom, ih, declsFrom]
    rcases ht : typeMatch s with _ | ⟨n', a, b⟩
    · simp [applyLine_types, ht]
    · by_cases hn : n' = n
      · subst hn
        cases hz : (declsFrom typeMatch n' (l + 1) rest).getLast? <;>
          simp [applyLine_types, ht, alookup_upsert, hz, getLast?_cons_orElse]
      · simp [applyLine_types, ht, alookup_upsert, hn]

/-- Taking as many characters as the maximal `p`-run is long recovers the
run itself. -/
theorem take_takeWhile (p : Char → Bool) (cs : List Char) :
    cs.take (cs.takeWhile p).length = cs.takeWhile p := by
  have h := List.take_left (cs.takeWhile p) (cs.dropWhile p)
  rwa [List.takeWhile_append_dropWhile] at h

/-- The character right after a maximal `p`-run does not satisfy `p`. -/
theorem dropWhile_head_false (p : Char → Bool) (cs : List Char) (c : Char)
    (h : (cs.dropWhile p).head? = some c) : p c = false := by
  induction cs with
  | nil => simp at h
  | cons a l ih =>
    rw [List.dropWhile_cons] at h
    by_cases hp : p a
    · exact ih (by simpa [hp] using h)
    · simp [hp] at h; subst h; simpa using hp

/-- A successful anchored attempt of the argument pattern captures the
maximal word run at the head of the input as `name` and reports the length
of the whole `name: type` match. -/
theorem argAttempt_spec (cs : List Char) (n t : String) (len : Nat)
    (h : argAttempt cs = some (n, t, len)) :
    cs.take n.data.length = n.data ∧ n.data ≠ [] ∧
    len = n.data.length + 2 + t.data.length := by
  unfold argAttempt at h
  split at h
  · exact absurd h (by simp)
  · split at h
    · exact absurd h (by simp)
    · rename_i hp1 r1 rest2 hr1ne heq1 hp2 r2 rest3 hr2ne heq2
      injection h with h
      have hn : String.mk r1 = n := congrArg Prod.fst h
      have hrest := congrArg Prod.snd h
      have ht : String.mk r2 = t := congrArg Prod.fst hrest
      have hlen : r1.length + 2 + r2.length = len := congrArg Prod.snd hrest
      subst hn ht hlen
      rw [List.span_eq_take_drop] at heq1
      have hr1 : List.takeWhile wordChar cs = r1 := congrArg Prod.fst heq1
      refine ⟨?_, ?_, rfl⟩
      · have := take_takeWhile wordChar cs
        rw [hr1] at this
        simpa using this
      · simpa using fun hnil => hr1ne hnil
  · exact absurd h (by simp)

/-- Every hit the finditer worker reports carries its own evidence: the
`name` capture is the text of the line at the reported start column, and
the reported end column is start + |name| + 2 + |type|. -/
theorem argScanGo_spec : ∀ (cs : List Char) (skip i : Nat) (n t : String) (a b : Nat),
    (n, t, a, b) ∈ argScanGo skip cs i →
    ∃ off, a = i + off ∧ (cs.drop off).take n.data.length = n.data ∧
      n.data ≠ [] ∧ b = a + n.data.length + 2 + t.data.length := by
  intro cs
  induction cs with
  | nil => intro skip i n t a b hmem; simp [argScanGo] at hmem
  | cons c rest ih =>
    intro skip i n t a b hmem
    cases skip with
    | succ k =>
      rw [argScanGo] at hmem
      obtain ⟨off', h1, h2, h3, h4⟩ := ih k (i + 1) n t a b hmem
      exact ⟨off' + 1, by omega, by simpa using h2, h3, h4⟩
    | zero =>
      rw [argScanGo] at hmem
      cases hA : argAttempt (c :: rest) with
      | none =>
        rw [hA] at hmem
        obtain ⟨off', h1, h2, h3, h4⟩ := ih 0 (i + 1) n t a b hmem
        exact ⟨off' + 1, by omega, by simpa using h2, h3, h4⟩
      | some m =>
        obtain ⟨n0, t0, len⟩ := m
        rw [hA] at hmem
        obtain ⟨hs1, hs2, hs3⟩ := argAttempt_spec _ _ _ _ hA
        rcases List.mem_cons.mp hmem with hhead | htail
        · have hn : n = n0 := congrArg Prod.fst hhead
          have h2 := congrArg Prod.snd hhead
          have ht : t = t0 := congrArg Prod.fst h2
          have h3 := congrArg Prod.snd h2
          have ha : a = i := congrArg Prod.fst h3
          have hb : b = i + len := congrArg Prod.snd h3
          subst hn ht ha hb
          exact ⟨0, by omega, by simpa using hs1, hs2, by omega⟩
        · obtain ⟨off', h1, h2, h3, h4⟩ := ih (len - 1) (i + 1) n t a b htail
          exact ⟨off' + 1, by omega, by simpa using h2, h3, h4⟩

/-- `argScanGo_spec` specialized to the scanner's entry point. -/
theorem argScan_spec (cs : List Char) (i : Nat) (n t : String) (a b : Nat)
    (hmem : (n, t, a, b) ∈ argScan cs i) :
    ∃ off, a = i + off ∧ (cs.drop off).take n.data.length = n.data ∧
      n.data ≠ [] ∧ b = a + n.data.length + 2 + t.data.length :=
  argScanGo_spec cs 0 i n t a b hmem

/-- A position is reported by `occStarts` exactly when the whole-word
pattern matches there (for a nonempty needle the range bound in the
definition is implied by the match itself). -/
theorem mem_occStarts (line w : String) (a : Nat) (hw : w.data ≠ []) :
    a ∈ occStarts line w ↔ occP line.data w.data a = true := by
  unfold occStarts
  rw [List.mem_filter, List.mem_range]
  constructor
  · rintro ⟨_, h⟩; exact h
  · intro h
    refine ⟨?_, h⟩
    have h1 : (line.data.drop a).take w.data.length = w.data := by
      have h' := h
      unfold occP at h'
      simp only [Bool.and_eq_true, beq_iff_eq] at h'
      exact h'.1.1
    have hle : a ≤ line.data.length := by
      by_contra hc
      push_neg at hc
      rw [List.drop_eq_nil_of_le (le_of_lt hc)] at h1
      simp at h1
      exact hw h1
    omega

/-- Membership in the reference list: a location is reported exactly when
the word occurs whole-word at that line and column, with the range spanning
the word. -/
theorem mem_refsFrom (uri w : String) (hw : w.data ≠ []) :
    ∀ (lines : List String) (l li a b : Nat),
      ((⟨uri, ⟨li, a, b⟩⟩ : Location) ∈ refsFrom uri w l lines) ↔
      ∃ i s, li = l + i ∧ lines[i]? = some s ∧ occP s.data w.data a = true ∧
        b = a + w.length := by
  intro lines
  induction lines with
  | nil => intro l li a b; simp [refsFrom]
  | cons s rest ih =>
    intro l li a b
    rw [refsFrom, List.mem_append]
    constructor
    · rintro (hmap | hrest)
      · rw [List.mem_map] at hmap
        obtain ⟨a0, ha0, heq⟩ := hmap
        simp only [Location.mk.injEq, SourceRange.mk.injEq] at heq
        obtain ⟨-, hl, hac, hb⟩ := heq
        refine ⟨0, s, by omega, by simp, ?_, by omega⟩
        rw [← hac]
        exact (mem_occStarts s w a0 hw).mp ha0
      · obtain ⟨i, s', h1, h2, h3, h4⟩ := (ih (l + 1) li a b).mp hrest
        exact ⟨i + 1, s', by omega, by simpa using h2, h3, h4⟩
    · rintro ⟨i, s', h1, h2, h3, h4⟩
      cases i with
      | zero =>
        left
        rw [List.mem_map]
        obtain rfl : s = s' := by simpa using h2
        subst h4
        have hli : li = l := by omega
        subst hli
        exact ⟨a, (mem_occStarts s w a hw).mpr h3, rfl⟩
      | succ i0 =>
        right
        exact (ih (l + 1) li a b).mpr ⟨i0, s', by omega, by simpa using h2, h3, h4⟩

/-- Every reported reference lies at or after the starting line of the
scan. -/
theorem refsFrom_line_ge (uri w : String) :
    ∀ (lines : List String) (l : Nat) (loc : Location),
      loc ∈ refsFrom uri w l lines → l ≤ loc.range.line := by
  intro lines
  induction lines with
  | nil => intro l loc h; simp [refsFrom] at h
  | cons s rest ih =>
    intro l loc hmem
    rw [refsFrom, List.mem_append] at hmem
    rcases hmem with hmap | hrest
    · rw [List.mem_map] at hmap
      obtain ⟨a0, -, heq⟩ := hmap
      subst heq
      exact le_rfl
    · exact le_trans (by omega) (ih (l + 1) loc hrest)

/-- The reference list is emitted in strictly ascending document order:
ascending line, and ascending start column within a line. -/
theorem refsFrom_pairwise (uri w : String) :
    ∀ (lines : List String) (l : Nat), (refsFrom uri w l lines).Pairwise locLt := by
  intro lines
  induction lines with
  | nil => intro l; simp [refsFrom]
  | cons s rest ih =>
    intro l
    rw [refsFrom, List.pairwise_append]
    refine ⟨?_, ih (l + 1), ?_⟩
    · rw [List.pairwise_map]
      have hr : (occStarts s w).Pairwise (· < ·) :=
        (List.pairwise_lt_range _).sublist (List.filter_sublist _)
      exact hr.imp (fun hab => Or.inr ⟨rfl, hab⟩)
    · intro x hx y hy
      rw [List.mem_map] at hx
      obtain ⟨a0, -, heq⟩ := hx
      subst heq
      have hy' := refsFrom_line_ge uri w rest (l + 1) y hy
      left
      show l < y.range.line
      omega

/-- A whitespace character is not a word character. -/
theorem spaceChar_not_wordChar (c : Char) (h : spaceChar c = true) :
    wordChar c = false := by
  simp only [spaceChar, Bool.or_eq_true, beq_iff_eq] at h
  obtain ((((rfl | rfl) | rfl) | rfl) | rfl) | rfl := h <;> decide

/-- A successful literal match consumed exactly the literal. -/
theorem litP_append (p : List Char) :
    ∀ (cs r : List Char), litP p cs = some r → cs = p ++ r := by
  induction p with
  | nil => intro cs r h; simp only [litP, Option.some.injEq] at h; rw [h]; rfl
  | cons pc ps ih =>
    intro cs r h
    cases cs with
    | nil => exact absurd h (by simp [litP])
    | cons c cs' =>
      rw [litP] at h
      split at h
      · rename_i hc
        rw [ih cs' r h]
        simp only [List.cons_append, List.cons.injEq, and_true]
        exact eq_of_beq hc
      · exact absurd h (by simp)

/-- The element after an append boundary. -/
theorem getElem?_append_middle (xs ys : List Char) :
    (xs ++ ys)[xs.length]? = ys[0]? := by
  rw [List.getElem?_append_right le_rfl]
  simp

/-- Central whole-word-occurrence builder: if the line decomposes as
`pre ++ w ++ tail` with a non-word (or absent) character on each side of
`w`, then the `\b w \b` pattern matches at column `|pre|`. -/
theorem occP_of_decomp (cs pre tail w : List Char)
    (hcs : cs = pre ++ w ++ tail)
    (hpre : pre = [] ∨ ∃ c, pre.getLast? = some c ∧ wordChar c = false)
    (htail : tail.head? = none ∨ ∃ c, tail.head? = some c ∧ wordChar c = false) :
    occP cs w pre.length = true := by
  unfold occP
  refine (Bool.and_eq_true _ _).mpr ⟨(Bool.and_eq_true _ _).mpr ⟨?_, ?_⟩, ?_⟩
  · rw [beq_iff_eq, hcs, List.append_assoc, List.drop_left, List.take_left]
  · rcases hpre with rfl | ⟨c, hlast, hcw⟩
    · rfl
    · have hne : pre ≠ [] := by
        intro hnil; subst hnil; simp at hlast
      set q := pre.dropLast with hq
      have hdec : q ++ [c] = pre := by
        have h1 := List.dropLast_append_getLast hne
        have h3 := List.getLast?_eq_getLast pre hne
        rw [h3] at hlast
        rw [Option.some_inj.mp hlast] at h1
        exact h1
      have hlen : pre.length = q.length + 1 := by
        rw [← hdec]; simp
      rw [hlen]
      show notWordAt cs q.length = true
      unfold notWordAt
      have hget : cs[q.length]? = some c := by
        rw [hcs, ← hdec, List.append_assoc, List.append_assoc,
          getElem?_append_middle]
        simp
      rw [hget]
      simp [hcw]
  · show notWordAt cs (pre.length + w.length) = true
    unfold notWordAt
    have hidx : cs[pre.length + w.length]? = tail[0]? := by
      rw [hcs]
      have hl : (pre ++ w).length = pre.length + w.length := by simp
      rw [← hl, getElem?_append_middle]
    rcases htail with hnone | ⟨c, hhead, hcw⟩
    · rw [hidx, ← List.head?_eq_getElem?, hnone]
    · rw [hidx, ← List.head?_eq_getElem?, hhead]
      simp [hcw]

/-- A name captured by the function rule sits at its reported columns as a
whole-word occurrence (preceded by the space of `function `, followed by
`(`). -/
theorem functionMatch_occ (s n : String) (a b : Nat)
    (h : functionMatch s = some (n, a, b)) :
    occP s.data n.data a = true ∧ b = a + n.data.length ∧ n.data ≠ [] := by
  unfold functionMatch at h
  split at h
  · rename_i c rest heq
    split at h
    · split at h
      · exact absurd h (by simp)
      · rename_i hpair run rest2 hrunne heq2
        injection h with h
        have hn : String.mk (c :: run) = n := congrArg Prod.fst h
        have h2 := congrArg Prod.snd h
        have ha : 9 = a := congrArg Prod.fst h2
        have hb : 9 + 1 + run.length = b := congrArg Prod.snd h2
        subst hn ha hb
        rw [List.span_eq_take_drop] at heq2
        have hr : rest.takeWhile wordChar = run := congrArg Prod.fst heq2
        have hd : rest.dropWhile wordChar = '(' :: rest2 := congrArg Prod.snd heq2
        have hrest : rest = run ++ '(' :: rest2 := by
          rw [← hr, ← hd, List.takeWhile_append_dropWhile]
        have hs := litP_append _ _ _ heq
        have hdec : s.data = "function ".data ++ (c :: run) ++ ('(' :: rest2) := by
          rw [hs, hrest]; simp
        have hocc := occP_of_decomp s.data "function ".data ('(' :: rest2)
          (c :: run) hdec
          (Or.inr ⟨' ', by decide, by decide⟩)
          (Or.inr ⟨'(', rfl, by decide⟩)
        have h9 : ("function ".data).length = 9 := by decide
        rw [h9] at hocc
        refine ⟨hocc, ?_, by simp⟩
        simp only [String.data]
        simp [List.length_cons]
        omega
      · exact absurd h (by simp)
    · exact absurd h (by simp)
  · exact absurd h (by simp)

/-- A name captured by the type rule sits at its reported columns as a
whole-word occurrence (preceded by the space of `type `, followed by
`(`). -/
theorem typeMatch_occ (s n : String) (a b : Nat)
    (h : typeMatch s = some (n, a, b)) :
    occP s.data n.data a = true ∧ b = a + n.data.length ∧ n.data ≠ [] := by
  unfold typeMatch at h
  split at h
  · rename_i c rest heq
    split at h
    · split at h
      · exact absurd h (by simp)
      · rename_i hpair run rest2 hrunne heq2
        injection h with h
        have hn : String.mk (c :: run) = n := congrArg Prod.fst h
        have h2 := congrArg Prod.snd h
        have ha : 5 = a := congrArg Prod.fst h2
        have hb : 5 + 1 + run.length = b := congrArg Prod.snd h2
        subst hn ha hb
        rw [List.span_eq_take_drop] at heq2
        have hr : rest.takeWhile wordChar = run := congrArg Prod.fst heq2
        have hd : rest.dropWhile wordChar = '(' :: rest2 := congrArg Prod.snd heq2
        have hrest : rest = run ++ '(' :: rest2 := by
          rw [← hr, ← hd, List.takeWhile_append_dropWhile]
        have hs := litP_append _ _ _ heq
        have hdec : s.data = "type ".data ++ (c :: run) ++ ('(' :: rest2) := by
          rw [hs, hrest]; simp
        have hocc := occP_of_decomp s.data "type ".data ('(' :: rest2)
          (c :: run) hdec
          (Or.inr ⟨' ', by decide, by decide⟩)
          (Or.inr ⟨'(', rfl, by decide⟩)
        have h5 : ("type ".data).length = 5 := by decide
        rw [h5] at hocc
        refine ⟨hocc, ?_, by simp⟩
        simp only [String.data]
        simp [List.length_cons]
        omega
      · exact absurd h (by simp)
    · exact absurd h (by simp)
  · exact absurd h (by simp)

/-- A successful run of the post-keyword part of the variable recognizer,
on a suffix of the line, captures a name that sits at its reported columns
as a whole-word occurrence of the whole line (preceded by the matched `\s`
character, followed by a non-word character or end of line). -/
theorem variableTail_occ (cs rest : List Char) (pre : List Char)
    (hpre : cs = pre ++ rest) (n : String) (a b : Nat)
    (h : variableTail cs rest = some (n, a, b)) :
    occP cs n.data a = true ∧ b = a + n.data.length ∧ n.data ≠ [] := by
  cases rest with
  | nil => exact absurd h (by simp [variableTail])
  | cons c rest2 =>
    cases rest2 with
    | nil => exact absurd h (by simp [variableTail])
    | cons d rest3 =>
      rw [variableTail] at h
      split at h
      · rename_i hsp
        split at h
        · exact absurd h (by simp)
        · split at h
          · rename_i hdcl hdw
            injection h with h
            set run := (rest3.span wordChar).fst with hrun
            have hn : String.mk (d :: run) = n := congrArg Prod.fst h
            have h2 := congrArg Prod.snd h
            have ha : cs.length - (d :: rest3).length = a := congrArg Prod.fst h2
            have hb : cs.length - (d :: rest3).length + 1 + run.length = b :=
              congrArg Prod.snd h2
            subst hn ha hb
            have hruntw : run = rest3.takeWhile wordChar := by
              rw [hrun, List.span_eq_take_drop]
            set tail := rest3.dropWhile wordChar with htail
            have hrest3 : rest3 = run ++ tail := by
              rw [hruntw, htail, List.takeWhile_append_dropWhile]
            have hdec : cs = (pre ++ [c]) ++ (d :: run) ++ tail := by
              rw [hpre, hrest3]; simp
            have hlencs : cs.length = pre.length + 2 + rest3.length := by
              rw [hpre]; simp; omega
            have hstart : cs.length - (d :: rest3).length = (pre ++ [c]).length := by
              simp [List.length_cons]
              omega
            have hocc := occP_of_decomp cs (pre ++ [c]) tail (d :: run) hdec
              (Or.inr ⟨c, by simp, spaceChar_not_wordChar c hsp⟩)
              ?_
            · rw [← hstart] at hocc
              refine ⟨hocc, ?_, by simp⟩
              simp only [String.data]
              simp [List.length_cons]
              omega
            · cases he : tail with
              | nil => exact Or.inl rfl
              | cons e tl =>
                refine Or.inr ⟨e, by simp, ?_⟩
                apply dropWhile_head_false wordChar rest3
                rw [← htail, he]
                rfl
          · exact absurd h (by simp)
      · exact absurd h (by simp)

/-- Inversion for the alternation scan: a result comes from some
alternative followed by a successful tail match. -/
theorem firstAlt_inv :
    ∀ (alts : List (List Char → Option (List Char))) (cs : List Char)
      (out : String × Nat × Nat),
      firstAlt cs alts = some out →
      ∃ f ∈ alts, ∃ rest, f cs = some rest ∧ variableTail cs rest = some out := by
  intro alts
  induction alts with
  | nil => intro cs out h; simp [firstAlt] at h
  | cons f alts ih =>
    intro cs out h
    rw [firstAlt] at h
    split at h
    · rename_i rest heq
      split at h
      · rename_i ans hans
        injection h with h
        subst h
        exact ⟨f, List.mem_cons_self _ _, rest, heq, hans⟩
      · obtain ⟨g, hg, rest', h1, h2⟩ := ih cs out h
        exact ⟨g, List.mem_cons_of_mem _ hg, rest', h1, h2⟩
    · obtain ⟨g, hg, rest', h1, h2⟩ := ih cs out h
      exact ⟨g, List.mem_cons_of_mem _ hg, rest', h1, h2⟩

/-- Every keyword alternative that succeeds consumed a prefix of the
line. -/
theorem alt_consumes :
    ∀ f ∈ varKeywordAlts, ∀ (cs rest : List Char),
      f cs = some rest → ∃ pre, cs = pre ++ rest := by
  intro f hf
  simp only [varKeywordAlts, List.mem_cons, List.not_mem_nil, or_false] at hf
  rcases hf with rfl | rfl | rfl | rfl | rfl | rfl | rfl | rfl | rfl | hsub | rfl
  case inr.inr.inr.inr.inr.inr.inr.inr.inr.inl =>
    subst hsub
    intro cs rest h
    unfold subjectSpTo at h
    split at h
    · rename_i c rest1 heq
      split at h
      · rename_i hsp
        refine ⟨"subject".data ++ c :: "to".data, ?_⟩
        rw [litP_append _ _ _ heq, litP_append _ _ _ h]
        simp
      · exact absurd h (by simp)
    · exact absurd h (by simp)
  all_goals
    intro cs rest h
    exact ⟨_, litP_append _ _ _ h⟩

/-- A name captured by the variable rule sits at its reported columns as a
whole-word occurrence. -/
theorem variableMatch_occ (s n : String) (a b : Nat)
    (h : variableMatch s = some (n, a, b)) :
    occP s.data n.data a = true ∧ b = a + n.data.length ∧ n.data ≠ [] := by
  unfold variableMatch at h
  obtain ⟨f, hfmem, rest, hf, htail⟩ := firstAlt_inv _ _ _ h
  obtain ⟨pre, hpre⟩ := alt_consumes f hfmem _ _ hf
  exact variableTail_occ _ _ pre hpre n a b htail

/-- The last element of a list is a member. -/
theorem mem_of_getLast? {α : Type} (l : List α) (x : α)
    (h : l.getLast? = some x) : x ∈ l := by
  obtain ⟨hne, heq⟩ := List.mem_getLast?_eq_getLast (l := l) (x := x)
    (by simpa [Option.mem_def] using h)
  rw [heq]
  exact List.getLast_mem hne

/-- Every recorded declaration range comes from a line on which the rule
captured the name at those columns. -/
theorem declsFrom_mem (m : String → Option (String × Nat × Nat)) (name : String) :
    ∀ (lines : List String) (l : Nat) (r : SourceRange),
      r ∈ declsFrom m name l lines →
      ∃ i s, lines[i]? = some s ∧ r.line = l + i ∧
        m s = some (name, r.startCol, r.endCol) := by
  intro lines
  induction lines with
  | nil => intro l r h; simp [declsFrom] at h
  | cons s rest ih =>
    intro l r h
    cases hm : m s with
    | none =>
      simp only [declsFrom, hm] at h
      obtain ⟨i, s', h1, h2, h3⟩ := ih (l + 1) r h
      exact ⟨i + 1, s', by simpa using h1, by omega, h3⟩
    | some p =>
      obtain ⟨n', a, b⟩ := p
      simp only [declsFrom, hm] at h
      by_cases hn : n' = name
      · rw [if_pos hn] at h
        rcases List.mem_cons.mp h with rfl | htail
        · exact ⟨0, s, by simp, by simp, by rw [hm, hn]⟩
        · obtain ⟨i, s', h1, h2, h3⟩ := ih (l + 1) r htail
          exact ⟨i + 1, s', by simpa using h1, by omega, h3⟩
      · rw [if_neg hn] at h
        obtain ⟨i, s', h1, h2, h3⟩ := ih (l + 1) r h
        exact ⟨i + 1, s', by simpa using h1, by omega, h3⟩

/-- A declaration recorded by a rule whose captures are whole-word
occurrences is itself reported by the reference scan. -/
theorem decl_in_refs (uri word : String) (lines : List String)
    (m : String → Option (String × Nat × Nat))
    (hocc : ∀ (s n : String) (a b : Nat), m s = some (n, a, b) →
      occP s.data n.data a = true ∧ b = a + n.data.length ∧ n.data ≠ [])
    (r : SourceRange) (hmem : r ∈ declsOf m word lines) :
    (⟨uri, r⟩ : Location) ∈ refsFrom uri word 0 lines := by
  obtain ⟨i, s, h1, h2, h3⟩ := declsFrom_mem m word lines 0 r hmem
  obtain ⟨ho, hb, hne⟩ := hocc s word r.startCol r.endCol h3
  have hm := (mem_refsFrom uri word hne lines 0 r.line r.startCol r.endCol).mpr
    ⟨i, s, by omega, h1, ho, hb⟩
  simpa using hm

/-! ## Claim theorems: the value classifier -/

/-- C1.  For every raw input string the classifier terminates and returns
exactly one `AmplValue` (it is a total Lean function, so termination and
determinism are by construction; the `∃!` clause records uniqueness of the
result), and when neither value-kind pattern matches the input it returns
the `Primitive` fallback wrapping that input. -/
theorem classify_total_and_fallback (s : String) :
    (∃! v : AmplValue, parse_type s = v) ∧
    (numberMatches s = false → symbolicMatches s = false →
      parse_type s = ⟨.primitive, s⟩) := by
  refine ⟨⟨parse_type s, rfl, fun v hv => hv.symm⟩, fun h1 h2 => ?_⟩
  simp [parse_type, subclasses, List.find?, regexMatches, h1, h2]

/-- Witness for C1 at the concrete unclassifiable input `"!!!"`. -/
theorem classify_total_and_fallback_witness :
    parse_type "!!!" = ⟨.primitive, "!!!"⟩ :=
  (classify_total_and_fallback "!!!").2 (by decide) (by decide)

/-- C2, counterexample.  The classifier does *not* require the winning
pattern to match the entire input: on `"42abc"` neither the number nor the
symbolic pattern matches the whole string (`numberMatchesFull` /
`symbolicMatchesFull` formalize the claim's "matches the entire relevant
span"), yet classification returns `Number`, not the `Primitive` the claim
would demand, because Python `re.match` accepts the prefix `"42"`. -/
theorem classify_entire_span_counterexample :
    parse_type "42abc" = ⟨.number, "42abc"⟩ ∧
    numberMatchesFull "42abc" = false ∧ symbolicMatchesFull "42abc" = false := by
  refine ⟨by decide, by decide, by decide⟩

/-- C2, amended.  The classifier tries the value-kind rules in the fixed
order number then symbolic and returns the first kind whose pattern matches
at the start of the input (a prefix match, Python `re.match` semantics —
not necessarily the entire input); the four documented examples hold. -/
theorem classify_first_prefix_match :
    (∀ s : String, parse_type s =
      if numberMatches s then ⟨.number, s⟩
      else if symbolicMatches s then ⟨.symbolic, s⟩
      else ⟨.primitive, s⟩) ∧
    parse_type "42" = ⟨.number, "42"⟩ ∧
    parse_type "42.5" = ⟨.number, "42.5"⟩ ∧
    parse_type "foo_bar" = ⟨.symbolic, "foo_bar"⟩ ∧
    parse_type "!!!" = ⟨.primitive, "!!!"⟩ := by
  refine ⟨fun s => ?_, by decide, by decide, by decide, by decide⟩
  by_cases h1 : numberMatches s <;> by_cases h2 : symbolicMatches s <;>
    simp [parse_type, subclasses, List.find?, regexMatches, h1, h2]

/-- C9.  `display_name` is `"Any"` exactly on the kinds that have
subclasses (`TypeBase`, `Primitive`, `DeclaredType`); the leaf collection
kind `Set` displays `"set[]"`, and the leaf kinds `Number` and `Symbolic`
display `"number"` and `"symbolic"`. -/
theorem display_name_spec :
    display_name .typeBase = "Any" ∧
    display_name .primitive = "Any" ∧
    display_name .declaredType = "Any" ∧
    display_name .set = "set[]" ∧
    display_name .number = "number" ∧
    display_name .symbolic = "symbolic" := by
  refine ⟨by decide, by decide, by decide, by decide, by decide, by decide⟩

/-- C10.  Whichever branch of the classifier produces the result — a
matching specific kind or the `Primitive` fallback — the returned object
stores the input string itself, unchanged, as its `value` field. -/
theorem parse_type_stores_raw_value (s : String) : (parse_type s).value = s := by
  unfold parse_type
  cases h : (subclasses .primitive).find? (fun sub => regexMatches sub s) <;> simp

/-! ## Claim theorems: the variable recognizer (C4) -/

/-- C4, divergence evidence.  `(?![if|and|or])` in the variable recognizer
is a negative lookahead over a *character class*, not over the keyword
alternation the spec describes: the pattern rejects every identifier whose
first character is one of `i f | a n d o r`.  So `"var data"` — whose
identifier `data` is not a reserved logical keyword and which the claim
says must be captured — produces no match, while `"var x"` is captured and
the keywords `if`, `and`, `or` are (coincidentally) rejected because they
start with such a character. -/
theorem variable_pattern_lookahead_divergence :
    variableMatch "var data" = none ∧
    variableMatch "var x" = some ("x", 4, 5) ∧
    variableMatch "var if" = none ∧
    variableMatch "var and" = none ∧
    variableMatch "var or" = none := by
  refine ⟨by decide, by decide, by decide, by decide, by decide⟩

/-! ## Claim theorems: unindexed documents and malformed cursors -/

/-- C7.  Every navigation query (definition, declaration, implementation,
references) against a URI that has no entry in the server's index store
returns no result; the handlers guard the lookup, so no exception path
exists (the Lean embeddings are total functions into `Option`). -/
theorem unindexed_uri_all_queries_none
    (store : List (String × DocIndex)) (uri : String) (lines : List String)
    (l : Nat) (word : String) (h : alookup store uri = none) :
    goto_definition store uri word = none ∧
    goto_implementation store uri word = none ∧
    goto_declaration store uri lines l word = none ∧
    find_references store uri lines word = none := by
  refine ⟨?_, ?_, ?_, ?_⟩ <;>
    simp [goto_definition, goto_implementation, goto_declaration,
      find_references, h]

/-- Witness for C7 on an empty store. -/
theorem unindexed_uri_all_queries_none_witness :
    goto_definition [] "file:///m.mod" "x" = none ∧
    goto_implementation [] "file:///m.mod" "x" = none ∧
    goto_declaration [] "file:///m.mod" ["var x"] 0 "x" = none ∧
    find_references [] "file:///m.mod" ["var x"] "x" = none :=
  unindexed_uri_all_queries_none [] "file:///m.mod" ["var x"] 0 "x" rfl

/-- C8, counterexample.  The hover and completion handlers index
`document.lines[params.position.line]` with no guard: on a one-line
document and cursor line 5 both raise `IndexError` (modelled as
`Except.error`), contradicting the claim that every cursor-line handler
treats an out-of-range line as an empty line and never raises. -/
theorem hover_completion_out_of_range_raise :
    hover ["hi"] 5 = Except.error "IndexError" ∧
    completions ["hi"] 5 = Except.error "IndexError" := ⟨rfl, rfl⟩

/-- C8, amended.  Of the cursor-line handlers only the declaration handler
guards the line access (`try/except IndexError` substituting the empty
line, hence no result); the hover and completion handlers index the line
list unguarded and raise `IndexError` whenever the cursor line is at or
beyond the document's line count. -/
theorem out_of_range_cursor_only_declaration_guarded
    (lines : List String) (l : Nat) (store : List (String × DocIndex))
    (uri word : String) (h : lines.length ≤ l) :
    hover lines l = Except.error "IndexError" ∧
    completions lines l = Except.error "IndexError" ∧
    goto_declaration store uri lines l word = none := by
  have hg : lines[l]? = none := List.getElem?_eq_none h
  refine ⟨?_, ?_, ?_⟩
  · simp [hover, hg]
  · simp [completions, hg]
  · cases hs : alookup store uri <;>
      simp [goto_declaration, hg, hs, argScan, argScanGo]

/-- Witness for C8's amended statement at a concrete out-of-range cursor. -/
theorem out_of_range_cursor_only_declaration_guarded_witness :
    hover ["hi"] 3 = Except.error "IndexError" ∧
    completions ["hi"] 3 = Except.error "IndexError" ∧
    goto_declaration [] "file:///m.mod" ["hi"] 3 "x" = none :=
  out_of_range_cursor_only_declaration_guarded ["hi"] 3 [] "file:///m.mod" "x"
    (by decide)

/-! ## Claim theorems: the document indexer (C6) -/

/-- C6.  For every category, re-indexing a document reads back under each
name exactly the range of the *last* (latest-line) declaration of that
name in that category (`getLast?` of the declarations in line order) —
last-write-wins; in particular `"var x"` on line 0 and again on line 5
leaves a single `variable` entry for `x`, pointing at line 5, columns
4–5. -/
theorem parse_document_last_write_wins :
    (∀ (lines : List String) (name : String),
      alookup (parse_document lines).vars name =
        (declsOf variableMatch name lines).getLast? ∧
      alookup (parse_document lines).funcs name =
        (declsOf functionMatch name lines).getLast? ∧
      alookup (parse_document lines).types name =
        (declsOf typeMatch name lines).getLast?) ∧
    alookup (parse_document ["var x", "", "", "", "", "var x"]).vars "x" =
      some ⟨5, 4, 5⟩ ∧
    ((parse_document ["var x", "", "", "", "", "var x"]).vars.filter
      (fun p => p.fst == "x")).length = 1 := by
  refine ⟨fun lines name => ⟨?_, ?_, ?_⟩, by decide, by decide⟩
  · rw [parse_document, parseFrom_vars_lookup]; simp [declsOf, alookup]
  · rw [parse_document, parseFrom_funcs_lookup]; simp [declsOf, alookup]
  · rw [parse_document, parseFrom_types_lookup]; simp [declsOf, alookup]

/-! ## Claim theorems: the declaration query (C5) -/

/-- C5.  With an index present for the URI, the declaration query re-scans
the current line only against the argument pattern: if some match's `name`
capture equals the cursor word, it returns a range on the current line that
starts exactly at that name's column and spans (at least) the name — the
word itself occupies columns `a .. a + |word|` of the line (the full range
extends over the whole `name: type` match, `b = a + |name| + 2 + |type|`);
if no argument match on the line has `name` equal to the cursor word, it
returns no result. -/
theorem goto_declaration_argument_inline
    (store : List (String × DocIndex)) (uri : String) (idx : DocIndex)
    (lines : List String) (l : Nat) (word : String)
    (hidx : alookup store uri = some idx) :
    (((argScan ((lines[l]?).getD "").data 0).find? (fun m => m.fst == word)) = none →
      goto_declaration store uri lines l word = none) ∧
    (∀ (n t : String) (a b : Nat),
      ((argScan ((lines[l]?).getD "").data 0).find? (fun m => m.fst == word))
          = some (n, t, a, b) →
      goto_declaration store uri lines l word = some ⟨uri, ⟨l, a, b⟩⟩ ∧
      n = word ∧
      ((((lines[l]?).getD "").data.drop a).take word.data.length = word.data) ∧
      word.data ≠ [] ∧ a + word.data.length ≤ b) := by
  constructor
  · intro hfind
    simp [goto_declaration, hidx, hfind]
  · intro n t a b hfind
    have hmem := List.mem_of_find?_eq_some hfind
    have hpred := List.find?_some hfind
    have hn : n = word := by simpa using hpred
    subst hn
    obtain ⟨off, hoff, htake, hne, hb⟩ := argScan_spec _ 0 n t a b hmem
    have hoff0 : off = a := by omega
    subst hoff0
    refine ⟨by simp [goto_declaration, hidx, hfind], rfl, ?_, hne, by omega⟩
    rw [hoff] at htake
    simpa using htake

/-- Witness for C5 on the spec's own example line `"x: Number"` with the
cursor on `x`. -/
theorem goto_declaration_argument_inline_witness :
    goto_declaration [("file:///m.mod", ⟨[], [], []⟩)] "file:///m.mod"
      ["x: Number"] 0 "x" = some ⟨"file:///m.mod", ⟨0, 0, 9⟩⟩ :=
  ((goto_declaration_argument_inline [("file:///m.mod", ⟨[], [], []⟩)]
      "file:///m.mod" ⟨[], [], []⟩ ["x: Number"] 0 "x" rfl).2
    "x" "Number" 0 9 (by decide)).1

/-! ## Claim theorems: the references query (C3) -/

/-- C3.  With an index present for the URI and a word-shaped cursor word:
if the word is a key in no category the references query returns no result;
if it is a key in some category the query returns exactly the whole-word
occurrences of the word across the document — one location per occurrence
(the membership characterization), in strictly ascending line-then-column
order (`Pairwise locLt`) — and the declaration site recorded by the indexer
for that word (in any category) is among the returned locations. -/
theorem find_references_characterization
    (store : List (String × DocIndex)) (uri : String) (idx : DocIndex)
    (lines : List String) (word : String)
    (hidx : alookup store uri = some idx)
    (hw : word ≠ "") (hwc : word.data.all wordChar = true) :
    (anyKey idx word = false → find_references store uri lines word = none) ∧
    (anyKey idx word = true →
      find_references store uri lines word = some (refsFrom uri word 0 lines)) ∧
    (refsFrom uri word 0 lines).Pairwise locLt ∧
    (∀ (li a b : Nat),
      ((⟨uri, ⟨li, a, b⟩⟩ : Location) ∈ refsFrom uri word 0 lines) ↔
        ∃ s, lines[li]? = some s ∧ occP s.data word.data a = true ∧
          b = a + word.length) ∧
    (∀ r : SourceRange,
      (alookup (parse_document lines).vars word = some r ∨
        alookup (parse_document lines).funcs word = some r ∨
        alookup (parse_document lines).types word = some r) →
      (⟨uri, r⟩ : Location) ∈ refsFrom uri word 0 lines) := by
  have hwd : word.data ≠ [] := by
    intro hnil
    apply hw
    cases word
    simp_all
  refine ⟨?_, ?_, refsFrom_pairwise uri word lines 0, ?_, ?_⟩
  · intro hk; simp [find_references, hidx, hk]
  · intro hk; simp [find_references, hidx, hk]
  · intro li a b
    rw [mem_refsFrom uri word hwd lines 0 li a b]
    constructor
    · rintro ⟨i, s, h1, h2, h3, h4⟩
      exact ⟨s, by rw [show li = i by omega]; exact h2, h3, h4⟩
    · rintro ⟨s, h2, h3, h4⟩
      exact ⟨li, s, by omega, h2, h3, h4⟩
  · intro r hr
    rcases hr with hr | hr | hr
    · rw [parse_document, parseFrom_vars_lookup] at hr
      simp only [alookup, Option.orElse_none] at hr
      exact decl_in_refs uri word lines variableMatch variableMatch_occ r
        (mem_of_getLast? _ _ hr)
    · rw [parse_document, parseFrom_funcs_lookup] at hr
      simp only [alookup, Option.orElse_none] at hr
      exact decl_in_refs uri word lines functionMatch functionMatch_occ r
        (mem_of_getLast? _ _ hr)
    · rw [parse_document, parseFrom_types_lookup] at hr
      simp only [alookup, Option.orElse_none] at hr
      exact decl_in_refs uri word lines typeMatch typeMatch_occ r
        (mem_of_getLast? _ _ hr)

/-- Witness for C3 on a two-line document: the declaration on line 0 and a
use on line 1 are both reported, in order. -/
theorem find_references_characterization_witness :
    find_references [("file:///m.mod", parse_document ["var x", "x + 2"])]
      "file:///m.mod" ["var x", "x + 2"] "x" =
      some [⟨"file:///m.mod", ⟨0, 4, 5⟩⟩, ⟨"file:///m.mod", ⟨1, 0, 1⟩⟩] :=
  ((find_references_characterization
      [("file:///m.mod", parse_document ["var x", "x + 2"])] "file:///m.mod"
      (parse_document ["var x", "x + 2"]) ["var x", "x + 2"] "x"
      rfl (by decide) (by decide)).2.1 (by decide)).trans (by decide)

end AmplLsp
